import Mathlib

/-
  Verification development for the Retra path-tracer core
  (src/core/ray.cpp and src/core/triplet.cpp).

  The embedding is shallow: pure numeric code is translated to Lean
  functions over ℚ (colour arithmetic, Russian roulette, Schlick,
  intersection bookkeeping) and over ℝ (refraction geometry and
  hemisphere sampling, which involve square roots).  Machine doubles are
  idealised as exact rationals/reals, as usual for such developments.

  The Triplet component type itself lives in triplet.h, which is not
  part of the two source files; its operations (addition, scaling,
  componentwise colour product, dot product, cross product, normalize)
  are modelled from the spec, section 4.1, which lists them explicitly.
-/

/-- Modelled from the spec: the 3-tuple of doubles used as both a 3D
vector and a linear RGB colour (triplet.h is not among the sources;
spec section 3 "Triple (Vector / Colour)"). -/
structure Triplet (α : Type) where
  x : α
  y : α
  z : α
deriving DecidableEq

/-- Modelled from the spec: componentwise addition `a+b`. -/
instance {α : Type} [Add α] : Add (Triplet α) :=
  ⟨fun a b => ⟨a.x + b.x, a.y + b.y, a.z + b.z⟩⟩

/-- Modelled from the spec: componentwise subtraction `a-b`. -/
instance {α : Type} [Sub α] : Sub (Triplet α) :=
  ⟨fun a b => ⟨a.x - b.x, a.y - b.y, a.z - b.z⟩⟩

/-- Modelled from the spec: componentwise negation. -/
instance {α : Type} [Neg α] : Neg (Triplet α) :=
  ⟨fun a => ⟨-a.x, -a.y, -a.z⟩⟩

/-- Modelled from the spec: scaling `a*k` (scalar on the right, as in
`surfaceNormal * (direction * surfaceNormal) * 2`). -/
instance {α : Type} [Mul α] : HMul (Triplet α) α (Triplet α) :=
  ⟨fun a k => ⟨a.x * k, a.y * k, a.z * k⟩⟩

/-- Modelled from the spec: componentwise colour product `a*b`
("paint"). -/
instance {α : Type} [Mul α] : HMul (Triplet α) (Triplet α) (Triplet α) :=
  ⟨fun a b => ⟨a.x * b.x, a.y * b.y, a.z * b.z⟩⟩

/-- Modelled from the spec: the dot product `a·b`. -/
def dot {α : Type} [Add α] [Mul α] (a b : Triplet α) : α :=
  a.x * b.x + a.y * b.y + a.z * b.z

/-- Modelled from the spec: the cross product `a×b`. -/
def cross {α : Type} [Mul α] [Sub α] (a b : Triplet α) : Triplet α :=
  ⟨a.y * b.z - a.z * b.y, a.z * b.x - a.x * b.z, a.x * b.y - a.y * b.x⟩

/-- `RGB::Black` (triplet.cpp, line 63). -/
def black : Triplet ℚ := ⟨0, 0, 0⟩

/-- `RGB::White` (triplet.cpp, line 67). -/
def white : Triplet ℚ := ⟨1, 1, 1⟩

/-- `Ray::schlick` (ray.cpp, lines 252-257):
`R0 = (n1-n2)^2/(n1+n2)^2`, result `R0 + (1-R0)*(1-cosTheta)^5`. -/
def schlick (n1 n2 cosTheta : ℚ) : ℚ :=
  let R0 := (n1 - n2) * (n1 - n2) / ((n1 + n2) * (n1 + n2))
  R0 + (1 - R0) * (1 - cosTheta) ^ 5

/-- The intensity `max(color.x, max(color.y, color.z))` used by
`Ray::russianRoulette` (ray.cpp, line 74). -/
def maxColor (c : Triplet ℚ) : ℚ := max c.x (max c.y c.z)

/-- `Ray::russianRoulette` (ray.cpp, lines 69-81).  The process-wide
draw `(double)std::rand() / RAND_MAX` is passed in as `u`, so the
comparison `maxColor < (double)std::rand() * rrLimit / RAND_MAX` reads
`maxColor < u * rrLimit`.  Returns the kill decision together with the
(possibly compensated) throughput colour. -/
def russianRoulette (rrLimit u : ℚ) (color : Triplet ℚ) : Bool × Triplet ℚ :=
  if rrLimit ≤ maxColor color then (false, color)
  else if maxColor color < u * rrLimit then (true, color)
  else (false, color * (rrLimit / maxColor color))

/-
  Embedding of `Ray::traceToNextIntersection` (ray.cpp, lines 184-250).

  A surface (Thing or Light) is reduced, for a fixed ray, to its
  identity, its background flag, and the list of its parts, each part
  carrying the value `(*part)->intersect(*this)` returns for that ray
  (the external `intersect` contract: smallest positive parameter, or 0
  on a miss).  `nearestT = INF` is modelled as `none`.  The `origin`
  advance is not modelled; the claims are about the hit slots.
-/

/-- One scene surface as seen by a fixed ray: identity, background
flag, and the intersect value of each of its parts. -/
structure Surf where
  sid : ℕ
  bg : Bool
  parts : List (ℕ × ℚ)
deriving DecidableEq

/-- The four hit slots of the ray plus the running `nearestT`
(`none` plays the role of `INF`). -/
structure HitState where
  nearestT : Option ℚ
  lightHit : Option ℕ
  lightPartHit : Option ℕ
  thingHit : Option ℕ
  thingPartHit : Option ℕ
deriving DecidableEq

/-- All hit slots NULL, `nearestT = INF` (ray.cpp, lines 188-193). -/
def initState : HitState := ⟨none, none, none, none, none⟩

/-- `t < nearestT`, with `none` standing for `INF`. -/
def ltNearest (t : ℚ) : Option ℚ → Bool
  | none => true
  | some m => decide (t < m)

/-- The loop-body guard `(t = (*part)->intersect(*this)) && t < nearestT`:
the double is truthy (nonzero) and beats the current nearest. -/
def hitCond (t : ℚ) (n : Option ℚ) : Bool := (t != 0) && ltNearest t n

/-- Loop body of the foreground Things pass (ray.cpp, lines 199-204):
record `nearestT`, `thingHit`, `thingPartHit`. -/
def stepThingFore (st : HitState) (e : ℕ × ℕ × ℚ) : HitState :=
  if hitCond e.2.2 st.nearestT then
    { st with nearestT := some e.2.2, thingHit := some e.1,
              thingPartHit := some e.2.1 }
  else st

/-- Loop body of both Lights passes (ray.cpp, lines 209-216 and
240-247, which are identical): record the light hit and clear the
thing slots. -/
def stepLight (st : HitState) (e : ℕ × ℕ × ℚ) : HitState :=
  if hitCond e.2.2 st.nearestT then
    { nearestT := some e.2.2, lightHit := some e.1,
      lightPartHit := some e.2.1, thingHit := none, thingPartHit := none }
  else st

/-- Loop body of the background Things pass (ray.cpp, lines 228-235):
record the thing hit and clear the light slots. -/
def stepThingBg (st : HitState) (e : ℕ × ℕ × ℚ) : HitState :=
  if hitCond e.2.2 st.nearestT then
    { nearestT := some e.2.2, lightHit := none, lightPartHit := none,
      thingHit := some e.1, thingPartHit := some e.2.1 }
  else st

/-- The elements visited by one nested `for thing / for part` loop pass
restricted to `isBackground() == b`, in iteration order:
`(surface id, part id, intersect value)`. -/
def passParts (b : Bool) (ss : List Surf) : List (ℕ × ℕ × ℚ) :=
  (ss.filter (fun s => s.bg = b)).flatMap
    (fun s => s.parts.map (fun p => (s.sid, p.1, p.2)))

/-- The two foreground passes (ray.cpp, lines 196-216). -/
def forePass (things lights : List Surf) : HitState :=
  (passParts false lights).foldl stepLight
    ((passParts false things).foldl stepThingFore initState)

/-- `Ray::traceToNextIntersection` (ray.cpp, lines 184-250): foreground
passes, early return on any foreground hit (line 218), otherwise the
two background passes. -/
def traceToNextIntersection (things lights : List Surf) : HitState :=
  let st2 := forePass things lights
  if st2.thingHit.isSome || st2.lightHit.isSome then st2
  else
    (passParts true lights).foldl stepLight
      ((passParts true things).foldl stepThingBg st2)

/-- Order on `nearestT` values, `none` acting as `INF`. -/
def nle : Option ℚ → Option ℚ → Prop
  | _, none => True
  | none, some _ => False
  | some a, some b => a ≤ b

/-- The C9 invariant on the hit slots: at most one of the two surfaces
is recorded and each part slot is populated exactly with its surface. -/
def hitInv (st : HitState) : Prop :=
  (st.thingHit = none ∨ st.lightHit = none) ∧
  (st.lightPartHit.isSome ↔ st.lightHit.isSome) ∧
  (st.thingPartHit.isSome ↔ st.thingHit.isSome)

/-- The elements of the two foreground passes, in iteration order. -/
def foreElems (things lights : List Surf) : List (ℕ × ℕ × ℚ) :=
  passParts false things ++ passParts false lights

/-- The elements of the two background passes, in iteration order. -/
def bgElems (things lights : List Surf) : List (ℕ × ℕ × ℚ) :=
  passParts true things ++ passParts true lights

/-- Every part the routine can visit. -/
def allElems (things lights : List Surf) : List (ℕ × ℕ × ℚ) :=
  foreElems things lights ++ bgElems things lights

/-- The two background passes as run after a foreground miss (in which
case the state they start from equals `initState`). -/
def bgPassInit (things lights : List Surf) : HitState :=
  (passParts true lights).foldl stepLight
    ((passParts true things).foldl stepThingBg initState)

/-
  Embedding of the recursive engine `Ray::trace` (ray.cpp, lines 33-67)
  and the four bounce methods (lines 83-182), for the termination claim.

  The external collaborators (scene query outcome, direct-light
  estimator, the sampled-direction cosine, the Schlick factor of the
  metallic bounce, and the roulette draw) are supplied as oracle
  streams indexed by the bounce number, exactly as the spec, section 6,
  describes them as opaque interfaces.  Colour painting, the depth
  decrement, the `depth < 1 || russianRoulette()` guards and the
  recursion structure are translated literally.  The recursion is run
  on explicit fuel: running out of fuel yields `none`, so `isSome`
  states that the given fuel bounds the number of nested `trace` calls.
-/

/-- The four material tags of `Material` dispatched in `trace`
(ray.cpp, lines 54-66). -/
inductive Material where
  | DIFFUSE
  | METALLIC
  | REFLECT
  | REFRACT

/-- Outcome of the pending intersection query consumed at the top of
`trace` (ray.cpp, lines 38-50): an emitter hit, a total miss, or a
non-emitter hit with its colour and the `interact()` draw. -/
inductive HitRes where
  | hitLight (emission : Triplet ℚ)
  | hitNothing
  | hitThing (surfaceColor : Triplet ℚ) (mat : Material)

/-- Oracle streams for the external collaborators of the k-th bounce. -/
structure TraceEnv where
  hit : ℕ → HitRes
  directLight : ℕ → Triplet ℚ
  diffuseCos : ℕ → ℚ
  schlickFactor : ℕ → ℚ
  rrU : ℕ → ℚ
  sky : Triplet ℚ

/-- `Ray::trace` (ray.cpp, lines 33-67) with the bounce bodies of
`bounceDiffuse` / `bounceMetallic` / `bounceReflect` / `bounceRefract`
(lines 83-182) inlined, on explicit fuel.  `depth - 1` is the
`--depth` of line 51; each branch guards recursion by
`depth < 1 || russianRoulette()` on the decremented depth, and the
roulette survivor continues with the compensated colour. -/
def traceFuel (env : TraceEnv) (rrLimit : ℚ) :
    ℕ → ℕ → Triplet ℚ → ℤ → Option (Triplet ℚ)
  | 0, _, _, _ => none
  | fuel + 1, k, color, depth =>
    if color = black ∨ depth < 0 then some black
    else
      match env.hit k with
      | HitRes.hitLight emission => some (color * emission)
      | HitRes.hitNothing => some (color * env.sky)
      | HitRes.hitThing surfaceColor mat =>
        match mat with
        | Material.DIFFUSE =>
          if depth - 1 < 1 ∨
              (russianRoulette rrLimit (env.rrU k) (color * surfaceColor)).1 then
            some (color * surfaceColor * env.directLight k)
          else
            Option.map (fun r => color * surfaceColor * env.directLight k + r)
              (traceFuel env rrLimit fuel (k + 1)
                ((russianRoulette rrLimit (env.rrU k) (color * surfaceColor)).2 *
                  (white * env.diffuseCos k))
                (depth - 1))
        | Material.METALLIC =>
          if depth - 1 < 1 ∨
              (russianRoulette rrLimit (env.rrU k)
                (color * surfaceColor * (white * env.schlickFactor k))).1 then
            some black
          else
            traceFuel env rrLimit fuel (k + 1)
              (russianRoulette rrLimit (env.rrU k)
                (color * surfaceColor * (white * env.schlickFactor k))).2
              (depth - 1)
        | Material.REFLECT =>
          if depth - 1 < 1 ∨
              (russianRoulette rrLimit (env.rrU k) (color * surfaceColor)).1 then
            some black
          else
            traceFuel env rrLimit fuel (k + 1)
              (russianRoulette rrLimit (env.rrU k) (color * surfaceColor)).2
              (depth - 1)
        | Material.REFRACT =>
          if depth - 1 < 1 ∨
              (russianRoulette rrLimit (env.rrU k) (color * surfaceColor)).1 then
            some black
          else
            traceFuel env rrLimit fuel (k + 1)
              (russianRoulette rrLimit (env.rrU k) (color * surfaceColor)).2
              (depth - 1)

/-- An environment in which every query misses to the sky. -/
def skyEnv : TraceEnv :=
  ⟨fun _ => HitRes.hitNothing, fun _ => white, fun _ => 1, fun _ => 1,
   fun _ => 0, black⟩

/-
  Real-valued geometry: the refraction bounce (ray.cpp, lines 136-182),
  the mirror reflection (line 131), and `Vector::random`
  (triplet.cpp, lines 37-61).  Doubles are idealised as reals so that
  `sqrt` is exact.
-/

/-- Modelled from the spec: the Euclidean length `sqrt(x^2+y^2+z^2)`. -/
noncomputable def vlength (v : Triplet ℝ) : ℝ := Real.sqrt (dot v v)

/-- Modelled from the spec: `normalize` divides the vector by its
length. -/
noncomputable def normalizeVec (v : Triplet ℝ) : Triplet ℝ :=
  ⟨v.x / vlength v, v.y / vlength v, v.z / vlength v⟩

/-- `Vector::UnitX` (triplet.cpp, line 70). -/
def unitX : Triplet ℝ := ⟨1, 0, 0⟩

/-- `Vector::UnitY` (triplet.cpp, line 71). -/
def unitY : Triplet ℝ := ⟨0, 1, 0⟩

/-- `Vector::UnitZ` (triplet.cpp, line 72). -/
def unitZ : Triplet ℝ := ⟨0, 0, 1⟩

/-- The `(n1, n2)` medium lookup shared by `bounceMetallic` and
`bounceRefract` (ray.cpp, lines 142-160): `n1` is vacuum (1) on an
empty stack, else the top's index; entering (`into`, i.e. the stack is
empty or its top differs from `thingHit`) reads `n2` from the struck
surface, leaving probes the element below the top (vacuum if none).
The stack is a list with its head as top. -/
def mediumN1N2 (ins : List ℕ) (th : ℕ) (ri : ℕ → ℝ) : ℝ × ℝ :=
  (match ins with
   | [] => 1
   | top :: _ => ri top,
   if ins.isEmpty || (ins.head? != some th) then ri th
   else
     match ins with
     | [] => 1
     | _ :: [] => 1
     | _ :: t2 :: _ => ri t2)

/-- `eta = n1 / n2` (ray.cpp, line 161). -/
noncomputable def refrEta (ins : List ℕ) (th : ℕ) (ri : ℕ → ℝ) : ℝ :=
  (mediumN1N2 ins th ri).1 / (mediumN1N2 ins th ri).2

/-- `sinTheta2Squared = eta^2 * (1 - cosTheta1^2)` with
`cosTheta1 = |direction ⬝ surfaceNormal|` (ray.cpp, lines 163-164). -/
noncomputable def sinT2sq (ins : List ℕ) (th : ℕ) (ri : ℕ → ℝ)
    (direction surfaceNormal : Triplet ℝ) : ℝ :=
  refrEta ins th ri * refrEta ins th ri *
    (1 - |dot direction surfaceNormal| * |dot direction surfaceNormal|)

/-- The direction-and-stack update of `Ray::bounceRefract`
(ray.cpp, lines 161-179).  On `1 < sinTheta2Squared` the code runs
`direction += surfaceNormal * (direction * surfaceNormal) * 2` and
leaves the stack; otherwise it sets the refracted direction
(line 174) and pushes `thingHit` when entering, pops when leaving. -/
noncomputable def bounceRefractGeom (ins : List ℕ) (th : ℕ) (ri : ℕ → ℝ)
    (direction surfaceNormal : Triplet ℝ) : Triplet ℝ × List ℕ :=
  if 1 < sinT2sq ins th ri direction surfaceNormal then
    (direction + surfaceNormal * dot direction surfaceNormal * (2 : ℝ), ins)
  else
    (direction * refrEta ins th ri +
       surfaceNormal *
         ((refrEta ins th ri * |dot direction surfaceNormal| -
            Real.sqrt (1 - sinT2sq ins th ri direction surfaceNormal)) *
          (if dot direction surfaceNormal < 0 then (1 : ℝ) else -1)),
     if ins.isEmpty || (ins.head? != some th) then th :: ins else ins.tail)

/-- The mirror reflection of `Ray::bounceReflect` (ray.cpp, line 131):
`direction -= surfaceNormal * (direction * surfaceNormal) * 2`
(also used by `bounceMetallic`, line 117). -/
noncomputable def reflectDirection (direction surfaceNormal : Triplet ℝ) : Triplet ℝ :=
  direction - surfaceNormal * dot direction surfaceNormal * (2 : ℝ)

open scoped Classical in
/-- `Vector::random` (triplet.cpp, lines 37-61) after the rejection
loop has produced the accepted sample `(x, y, z)` (the loop guarantees
`x, y ∈ [-1, 1]`, `z ∈ [0, 1]`, `x^2+y^2+z^2 ≤ 1` and not all zero):
build the tangential basis — `(UnitX, UnitY)` when the normal is
exactly `±UnitZ`, else normalized cross products — and return the
normalized combination `tangentialX*x + tangentialY*y + normal*z`. -/
noncomputable def vectorRandom (normal : Triplet ℝ) (x y z : ℝ) : Triplet ℝ :=
  if unitZ = normal ∨ -unitZ = normal then
    normalizeVec (unitX * x + unitY * y + normal * z)
  else
    normalizeVec (normalizeVec (cross normal unitZ) * x +
      normalizeVec (cross normal (normalizeVec (cross normal unitZ))) * y +
      normal * z)

@[simp] theorem Triplet.add_def {α : Type} [Add α] (a b : Triplet α) :
    a + b = ⟨a.x + b.x, a.y + b.y, a.z + b.z⟩ := rfl

@[simp] theorem Triplet.sub_def {α : Type} [Sub α] (a b : Triplet α) :
    a - b = ⟨a.x - b.x, a.y - b.y, a.z - b.z⟩ := rfl

@[simp] theorem Triplet.neg_def {α : Type} [Neg α] (a : Triplet α) :
    -a = ⟨-a.x, -a.y, -a.z⟩ := rfl

@[simp] theorem Triplet.smul_def {α : Type} [Mul α] (a : Triplet α) (k : α) :
    a * k = ⟨a.x * k, a.y * k, a.z * k⟩ := rfl

@[simp] theorem Triplet.cmul_def {α : Type} [Mul α] (a b : Triplet α) :
    a * b = ⟨a.x * b.x, a.y * b.y, a.z * b.z⟩ := rfl

/-- Claim C2, counterexample: the spec asserts `schlick(n, n, c) = 0`
for all `c`, but at `n = 1`, `c = 0` the code returns
`R0 + (1-R0)*(1-0)^5 = 0 + 1 = 1 ≠ 0`. -/
theorem schlick_equal_indices_counterexample : schlick 1 1 0 ≠ 0 := by
  norm_num [schlick]

/-- Claim C2 (amended): for equal indices, `schlick(n, n, c) = (1-c)^5`
(so it vanishes at `c = 1`, not for every `c`); `schlick(n1, n2, 0) = 1`
whenever `n1 + n2 ≠ 0`; and `schlick(1, 3/2, 1) = (0.5/2.5)^2 = 0.04`. -/
theorem schlick_identities (n c n1 n2 : ℚ) :
    (n ≠ 0 → schlick n n c = (1 - c) ^ 5) ∧
    (n ≠ 0 → schlick n n 1 = 0) ∧
    (n1 + n2 ≠ 0 → schlick n1 n2 0 = 1) ∧
    schlick 1 (3/2) 1 = 1/25 := by
  refine ⟨fun _ => ?_, fun _ => ?_, fun h => ?_, by norm_num [schlick]⟩
  · simp [schlick]
  · simp [schlick]
  · have hden : (n1 + n2) * (n1 + n2) ≠ 0 := mul_ne_zero h h
    simp only [schlick]
    field_simp

/-- Claim C2, witness: the amended identities evaluated at
`n = 2`, `c = 0`, `n1 = 1`, `n2 = 3/2`. -/
theorem schlick_identities_witness :
    ((2 : ℚ) ≠ 0 ∧ schlick 2 2 0 = (1 - 0) ^ 5) ∧
    ((1 : ℚ) + 3/2 ≠ 0 ∧ schlick 1 (3/2) 0 = 1) :=
  ⟨⟨by norm_num, (schlick_identities 2 0 1 (3/2)).1 (by norm_num)⟩,
   ⟨by norm_num, (schlick_identities 2 0 1 (3/2)).2.2.1 (by norm_num)⟩⟩

/-- Claim C4: with `m = max(color.x, color.y, color.z)`, roulette never
kills when `rrLimit ≤ m`; otherwise it kills exactly when
`m < u * rrLimit`; and a surviving draw with `m < rrLimit` scales the
colour by `rrLimit / m`. -/
theorem russianRoulette_spec (rrLimit u : ℚ) (color : Triplet ℚ) :
    (rrLimit ≤ maxColor color →
      russianRoulette rrLimit u color = (false, color)) ∧
    (maxColor color < rrLimit →
      ((russianRoulette rrLimit u color).1 = true ↔
        maxColor color < u * rrLimit)) ∧
    (maxColor color < rrLimit → ¬ maxColor color < u * rrLimit →
      russianRoulette rrLimit u color =
        (false, color * (rrLimit / maxColor color))) := by
  refine ⟨fun h => ?_, fun h => ?_, fun h h2 => ?_⟩
  · simp [russianRoulette, h]
  · rw [russianRoulette, if_neg (not_le.mpr h)]
    by_cases h2 : maxColor color < u * rrLimit <;> simp [h2]
  · rw [russianRoulette, if_neg (not_le.mpr h), if_neg h2]

/-- Claim C4, witness: `rrLimit = 1`, `u = 0`, `color = (1/2, 0, 0)`:
the draw survives and the colour is compensated by `rrLimit / m = 2`. -/
theorem russianRoulette_spec_witness :
    (maxColor ⟨1/2, 0, 0⟩ < 1 ∧ ¬ maxColor ⟨1/2, 0, 0⟩ < (0 : ℚ) * 1) ∧
    russianRoulette 1 0 ⟨1/2, 0, 0⟩ =
      (false, (⟨1/2, 0, 0⟩ : Triplet ℚ) * ((1 : ℚ) / maxColor ⟨1/2, 0, 0⟩)) :=
  ⟨⟨by norm_num [maxColor], by norm_num [maxColor]⟩,
   (russianRoulette_spec 1 0 ⟨1/2, 0, 0⟩).2.2
     (by norm_num [maxColor]) (by norm_num [maxColor])⟩

/-- Claim C10: roulette leaves the colour exactly unchanged when it
kills and when it declines because `rrLimit ≤ m`; the `rrLimit / m`
scaling happens precisely on the surviving draw with `m < rrLimit`. -/
theorem russianRoulette_frame (rrLimit u : ℚ) (color : Triplet ℚ) :
    ((russianRoulette rrLimit u color).1 = true →
      (russianRoulette rrLimit u color).2 = color) ∧
    (rrLimit ≤ maxColor color →
      (russianRoulette rrLimit u color).2 = color) ∧
    (¬ rrLimit ≤ maxColor color → (russianRoulette rrLimit u color).1 = false →
      (russianRoulette rrLimit u color).2 =
        color * (rrLimit / maxColor color)) := by
  unfold russianRoulette
  split_ifs with h1 h2 <;> simp_all

/-- Claim C10, witness: `rrLimit = 1`, `u = 1`, `color = (1/2, 0, 0)`:
the path is killed and the colour is untouched. -/
theorem russianRoulette_frame_witness :
    (russianRoulette 1 1 ⟨1/2, 0, 0⟩).2 = (⟨1/2, 0, 0⟩ : Triplet ℚ) :=
  (russianRoulette_frame 1 1 ⟨1/2, 0, 0⟩).1
    (by norm_num [russianRoulette, maxColor])

theorem nle_refl (n : Option ℚ) : nle n n := by
  cases n <;> simp [nle]

theorem nle_trans {a b c : Option ℚ} (h1 : nle a b) (h2 : nle b c) :
    nle a c := by
  cases a <;> cases b <;> cases c <;> simp_all [nle]
  exact le_trans h1 h2

theorem nle_some_some {a b : ℚ} (h : nle (some a) (some b)) : a ≤ b := h

theorem ltNearest_nle {t : ℚ} {n : Option ℚ} (h : ltNearest t n = true) :
    nle (some t) n := by
  cases n with
  | none => trivial
  | some m =>
    simp only [ltNearest, decide_eq_true_eq] at h
    exact le_of_lt h

theorem ltNearest_false {t : ℚ} {n : Option ℚ} (h : ltNearest t n = false) :
    ∃ m, n = some m ∧ m ≤ t := by
  cases n with
  | none => simp [ltNearest] at h
  | some m =>
    simp only [ltNearest, decide_eq_false_iff_not, not_lt] at h
    exact ⟨m, rfl, h⟩

theorem hitCond_iff {t : ℚ} {n : Option ℚ} :
    hitCond t n = true ↔ t ≠ 0 ∧ ltNearest t n = true := by
  simp [hitCond]

theorem hitCond_zero (n : Option ℚ) : hitCond 0 n = false := by
  simp [hitCond]

theorem stepThingFore_nle (st : HitState) (a : ℕ × ℕ × ℚ) :
    nle (stepThingFore st a).nearestT st.nearestT := by
  by_cases hc : hitCond a.2.2 st.nearestT
  · simp only [stepThingFore, hc, if_true]
    exact ltNearest_nle (hitCond_iff.mp hc).2
  · simp only [stepThingFore, hc, if_false]
    exact nle_refl _

theorem tf_skip (l : List (ℕ × ℕ × ℚ)) :
    ∀ st : HitState, (∀ e ∈ l, hitCond e.2.2 st.nearestT = false) →
      l.foldl stepThingFore st = st := by
  induction l with
  | nil => intro st _; rfl
  | cons a tl ih =>
    intro st h
    have ha : hitCond a.2.2 st.nearestT = false := h a (List.mem_cons_self a tl)
    have hstep : stepThingFore st a = st := by
      simp [stepThingFore, ha]
    rw [List.foldl_cons, hstep]
    exact ih st (fun e he => h e (List.mem_cons_of_mem a he))

theorem tf_lights (l : List (ℕ × ℕ × ℚ)) :
    ∀ st : HitState,
      (l.foldl stepThingFore st).lightHit = st.lightHit ∧
      (l.foldl stepThingFore st).lightPartHit = st.lightPartHit := by
  induction l with
  | nil => intro st; exact ⟨rfl, rfl⟩
  | cons a tl ih =>
    intro st
    rw [List.foldl_cons]
    refine ⟨(ih _).1.trans ?_, (ih _).2.trans ?_⟩ <;>
      by_cases hc : hitCond a.2.2 st.nearestT <;> simp [stepThingFore, hc]

theorem tf_iff (l : List (ℕ × ℕ × ℚ)) :
    ∀ st : HitState, (st.thingPartHit.isSome ↔ st.thingHit.isSome) →
      ((l.foldl stepThingFore st).thingPartHit.isSome ↔
        (l.foldl stepThingFore st).thingHit.isSome) := by
  induction l with
  | nil => intro st h; exact h
  | cons a tl ih =>
    intro st h
    rw [List.foldl_cons]
    refine ih _ ?_
    by_cases hc : hitCond a.2.2 st.nearestT <;> simp [stepThingFore, hc, h]

theorem tf_mono (l : List (ℕ × ℕ × ℚ)) :
    ∀ st : HitState, nle (l.foldl stepThingFore st).nearestT st.nearestT := by
  induction l with
  | nil => intro st; exact nle_refl _
  | cons a tl ih =>
    intro st
    rw [List.foldl_cons]
    exact nle_trans (ih _) (stepThingFore_nle st a)

theorem tf_bound (l : List (ℕ × ℕ × ℚ)) :
    ∀ st : HitState, ∀ e ∈ l, e.2.2 ≠ 0 →
      nle (l.foldl stepThingFore st).nearestT (some e.2.2) := by
  induction l with
  | nil => intro st e he; cases he
  | cons a tl ih =>
    intro st e he hne
    rw [List.foldl_cons]
    rcases List.mem_cons.mp he with rfl | htl
    · by_cases hc : hitCond e.2.2 st.nearestT
      · have : (stepThingFore st e).nearestT = some e.2.2 := by
          simp [stepThingFore, hc]
        have := tf_mono tl (stepThingFore st e)
        rw [‹(stepThingFore st e).nearestT = some e.2.2›] at this
        exact this
      · have hlt : ltNearest e.2.2 st.nearestT = false := by
          rcases Bool.and_eq_false_iff.mp (Bool.not_eq_true _ ▸ hc) with h | h
          · exact absurd (by simpa using h) (by simpa using hne)
          · exact h
        obtain ⟨m, hm, hmle⟩ := ltNearest_false hlt
        have hstep : stepThingFore st e = st := by simp [stepThingFore, hc]
        rw [hstep]
        refine nle_trans (tf_mono tl st) ?_
        rw [hm]
        exact hmle
    · exact ih _ e htl hne

theorem tf_prov (l : List (ℕ × ℕ × ℚ)) :
    ∀ st : HitState,
      l.foldl stepThingFore st = st ∨
      ∃ e ∈ l, e.2.2 ≠ 0 ∧
        (l.foldl stepThingFore st).nearestT = some e.2.2 ∧
        (l.foldl stepThingFore st).thingHit = some e.1 ∧
        (l.foldl stepThingFore st).thingPartHit = some e.2.1 := by
  induction l with
  | nil => intro st; exact Or.inl rfl
  | cons a tl ih =>
    intro st
    rw [List.foldl_cons]
    by_cases hc : hitCond a.2.2 st.nearestT
    · rcases ih (stepThingFore st a) with heq | ⟨e, he, hne, h1, h2, h3⟩
      · refine Or.inr ⟨a, List.mem_cons_self a tl, (hitCond_iff.mp hc).1, ?_⟩
        rw [heq]
        simp [stepThingFore, hc]
      · exact Or.inr ⟨e, List.mem_cons_of_mem a he, hne, h1, h2, h3⟩
    · have hstep : stepThingFore st a = st := by simp [stepThingFore, hc]
      rw [hstep]
      rcases ih st with heq | ⟨e, he, hrest⟩
      · exact Or.inl heq
      · exact Or.inr ⟨e, List.mem_cons_of_mem a he, hrest⟩

theorem tf_someMono (l : List (ℕ × ℕ × ℚ)) :
    ∀ st : HitState, st.thingHit.isSome →
      (l.foldl stepThingFore st).thingHit.isSome := by
  induction l with
  | nil => intro st h; exact h
  | cons a tl ih =>
    intro st h
    rw [List.foldl_cons]
    refine ih _ ?_
    by_cases hc : hitCond a.2.2 st.nearestT <;> simp [stepThingFore, hc, h]

theorem tf_fires (l : List (ℕ × ℕ × ℚ)) :
    ∀ st : HitState, st.nearestT = none → (∃ e ∈ l, e.2.2 ≠ 0) →
      (l.foldl stepThingFore st).thingHit.isSome := by
  induction l with
  | nil => intro st _ h; obtain ⟨e, he, _⟩ := h; cases he
  | cons a tl ih =>
    intro st hn ⟨e, he, hne⟩
    rw [List.foldl_cons]
    by_cases hc : hitCond a.2.2 st.nearestT
    · refine tf_someMono tl _ ?_
      simp [stepThingFore, hc]
    · have hstep : stepThingFore st a = st := by simp [stepThingFore, hc]
      rw [hstep]
      rcases List.mem_cons.mp he with rfl | htl
      · exact absurd (by simp [hitCond, hne, hn, ltNearest]) hc
      · exact ih st hn ⟨e, htl, hne⟩

theorem stepLight_nle (st : HitState) (a : ℕ × ℕ × ℚ) :
    nle (stepLight st a).nearestT st.nearestT := by
  by_cases hc : hitCond a.2.2 st.nearestT
  · simp only [stepLight, hc, if_true]
    exact ltNearest_nle (hitCond_iff.mp hc).2
  · simp only [stepLight, hc, if_false]
    exact nle_refl _

theorem sl_skip (l : List (ℕ × ℕ × ℚ)) :
    ∀ st : HitState, (∀ e ∈ l, hitCond e.2.2 st.nearestT = false) →
      l.foldl stepLight st = st := by
  induction l with
  | nil => intro st _; rfl
  | cons a tl ih =>
    intro st h
    have ha : hitCond a.2.2 st.nearestT = false := h a (List.mem_cons_self a tl)
    have hstep : stepLight st a = st := by simp [stepLight, ha]
    rw [List.foldl_cons, hstep]
    exact ih st (fun e he => h e (List.mem_cons_of_mem a he))

theorem sl_mono (l : List (ℕ × ℕ × ℚ)) :
    ∀ st : HitState, nle (l.foldl stepLight st).nearestT st.nearestT := by
  induction l with
  | nil => intro st; exact nle_refl _
  | cons a tl ih =>
    intro st
    rw [List.foldl_cons]
    exact nle_trans (ih _) (stepLight_nle st a)

theorem sl_bound (l : List (ℕ × ℕ × ℚ)) :
    ∀ st : HitState, ∀ e ∈ l, e.2.2 ≠ 0 →
      nle (l.foldl stepLight st).nearestT (some e.2.2) := by
  induction l with
  | nil => intro st e he; cases he
  | cons a tl ih =>
    intro st e he hne
    rw [List.foldl_cons]
    rcases List.mem_cons.mp he with rfl | htl
    · by_cases hc : hitCond e.2.2 st.nearestT
      · have hn : (stepLight st e).nearestT = some e.2.2 := by
          simp [stepLight, hc]
        have := sl_mono tl (stepLight st e)
        rw [hn] at this
        exact this
      · have hlt : ltNearest e.2.2 st.nearestT = false := by
          rcases Bool.and_eq_false_iff.mp (Bool.not_eq_true _ ▸ hc) with h | h
          · exact absurd (by simpa using h) (by simpa using hne)
          · exact h
        obtain ⟨m, hm, hmle⟩ := ltNearest_false hlt
        have hstep : stepLight st e = st := by simp [stepLight, hc]
        rw [hstep]
        refine nle_trans (sl_mono tl st) ?_
        rw [hm]
        exact hmle
    · exact ih _ e htl hne

theorem sl_prov (l : List (ℕ × ℕ × ℚ)) :
    ∀ st : HitState,
      l.foldl stepLight st = st ∨
      ∃ e ∈ l, e.2.2 ≠ 0 ∧
        (l.foldl stepLight st).nearestT = some e.2.2 ∧
        (l.foldl stepLight st).lightHit = some e.1 ∧
        (l.foldl stepLight st).lightPartHit = some e.2.1 ∧
        (l.foldl stepLight st).thingHit = none ∧
        (l.foldl stepLight st).thingPartHit = none := by
  induction l with
  | nil => intro st; exact Or.inl rfl
  | cons a tl ih =>
    intro st
    rw [List.foldl_cons]
    by_cases hc : hitCond a.2.2 st.nearestT
    · rcases ih (stepLight st a) with heq | ⟨e, he, hne, hrest⟩
      · refine Or.inr ⟨a, List.mem_cons_self a tl, (hitCond_iff.mp hc).1, ?_⟩
        rw [heq]
        simp [stepLight, hc]
      · exact Or.inr ⟨e, List.mem_cons_of_mem a he, hne, hrest⟩
    · have hstep : stepLight st a = st := by simp [stepLight, hc]
      rw [hstep]
      rcases ih st with heq | ⟨e, he, hrest⟩
      · exact Or.inl heq
      · exact Or.inr ⟨e, List.mem_cons_of_mem a he, hrest⟩

theorem sl_someMono (l : List (ℕ × ℕ × ℚ)) :
    ∀ st : HitState, st.lightHit.isSome →
      (l.foldl stepLight st).lightHit.isSome := by
  induction l with
  | nil => intro st h; exact h
  | cons a tl ih =>
    intro st h
    rw [List.foldl_cons]
    refine ih _ ?_
    by_cases hc : hitCond a.2.2 st.nearestT <;> simp [stepLight, hc, h]

theorem sl_fires (l : List (ℕ × ℕ × ℚ)) :
    ∀ st : HitState, st.nearestT = none → (∃ e ∈ l, e.2.2 ≠ 0) →
      (l.foldl stepLight st).lightHit.isSome := by
  induction l with
  | nil => intro st _ h; obtain ⟨e, he, _⟩ := h; cases he
  | cons a tl ih =>
    intro st hn ⟨e, he, hne⟩
    rw [List.foldl_cons]
    by_cases hc : hitCond a.2.2 st.nearestT
    · refine sl_someMono tl _ ?_
      simp [stepLight, hc]
    · have hstep : stepLight st a = st := by simp [stepLight, hc]
      rw [hstep]
      rcases List.mem_cons.mp he with rfl | htl
      · exact absurd (by simp [hitCond, hne, hn, ltNearest]) hc
      · exact ih st hn ⟨e, htl, hne⟩

theorem sl_disj (l : List (ℕ × ℕ × ℚ)) :
    ∀ st : HitState, (st.thingHit.isSome ∨ st.lightHit.isSome) →
      ((l.foldl stepLight st).thingHit.isSome ∨
        (l.foldl stepLight st).lightHit.isSome) := by
  induction l with
  | nil => intro st h; exact h
  | cons a tl ih =>
    intro st h
    rw [List.foldl_cons]
    refine ih _ ?_
    by_cases hc : hitCond a.2.2 st.nearestT <;> simp [stepLight, hc, h]

theorem sl_inv (l : List (ℕ × ℕ × ℚ)) :
    ∀ st : HitState, hitInv st → hitInv (l.foldl stepLight st) := by
  induction l with
  | nil => intro st h; exact h
  | cons a tl ih =>
    intro st h
    rw [List.foldl_cons]
    refine ih _ ?_
    by_cases hc : hitCond a.2.2 st.nearestT
    · simp [stepLight, hc, hitInv]
    · have hstep : stepLight st a = st := by simp [stepLight, hc]
      rw [hstep]
      exact h

theorem tb_skip (l : List (ℕ × ℕ × ℚ)) :
    ∀ st : HitState, (∀ e ∈ l, hitCond e.2.2 st.nearestT = false) →
      l.foldl stepThingBg st = st := by
  induction l with
  | nil => intro st _; rfl
  | cons a tl ih =>
    intro st h
    have ha : hitCond a.2.2 st.nearestT = false := h a (List.mem_cons_self a tl)
    have hstep : stepThingBg st a = st := by simp [stepThingBg, ha]
    rw [List.foldl_cons, hstep]
    exact ih st (fun e he => h e (List.mem_cons_of_mem a he))

theorem tb_someMono (l : List (ℕ × ℕ × ℚ)) :
    ∀ st : HitState, st.thingHit.isSome →
      (l.foldl stepThingBg st).thingHit.isSome := by
  induction l with
  | nil => intro st h; exact h
  | cons a tl ih =>
    intro st h
    rw [List.foldl_cons]
    refine ih _ ?_
    by_cases hc : hitCond a.2.2 st.nearestT <;> simp [stepThingBg, hc, h]

theorem tb_fires (l : List (ℕ × ℕ × ℚ)) :
    ∀ st : HitState, st.nearestT = none → (∃ e ∈ l, e.2.2 ≠ 0) →
      (l.foldl stepThingBg st).thingHit.isSome := by
  induction l with
  | nil => intro st _ h; obtain ⟨e, he, _⟩ := h; cases he
  | cons a tl ih =>
    intro st hn ⟨e, he, hne⟩
    rw [List.foldl_cons]
    by_cases hc : hitCond a.2.2 st.nearestT
    · refine tb_someMono tl _ ?_
      simp [stepThingBg, hc]
    · have hstep : stepThingBg st a = st := by simp [stepThingBg, hc]
      rw [hstep]
      rcases List.mem_cons.mp he with rfl | htl
      · exact absurd (by simp [hitCond, hne, hn, ltNearest]) hc
      · exact ih st hn ⟨e, htl, hne⟩

theorem tb_prov (l : List (ℕ × ℕ × ℚ)) :
    ∀ st : HitState,
      l.foldl stepThingBg st = st ∨
      (l.foldl stepThingBg st).thingHit.isSome := by
  induction l with
  | nil => intro st; exact Or.inl rfl
  | cons a tl ih =>
    intro st
    rw [List.foldl_cons]
    by_cases hc : hitCond a.2.2 st.nearestT
    · exact Or.inr (tb_someMono tl _ (by simp [stepThingBg, hc]))
    · have hstep : stepThingBg st a = st := by simp [stepThingBg, hc]
      rw [hstep]
      exact ih st

theorem tb_inv (l : List (ℕ × ℕ × ℚ)) :
    ∀ st : HitState, hitInv st → hitInv (l.foldl stepThingBg st) := by
  induction l with
  | nil => intro st h; exact h
  | cons a tl ih =>
    intro st h
    rw [List.foldl_cons]
    refine ih _ ?_
    by_cases hc : hitCond a.2.2 st.nearestT
    · simp [stepThingBg, hc, hitInv]
    · have hstep : stepThingBg st a = st := by simp [stepThingBg, hc]
      rw [hstep]
      exact h

theorem fore_skip (things lights : List Surf)
    (h : ∀ e ∈ foreElems things lights, e.2.2 = 0) :
    forePass things lights = initState := by
  rw [forePass]
  have h1 : (passParts false things).foldl stepThingFore initState = initState :=
    tf_skip _ initState (fun e he => by
      rw [h e (List.mem_append_left _ he)]; exact hitCond_zero _)
  rw [h1]
  exact sl_skip _ initState (fun e he => by
    rw [h e (List.mem_append_right _ he)]; exact hitCond_zero _)

theorem fore_hit (things lights : List Surf)
    (h : ∃ e ∈ foreElems things lights, e.2.2 ≠ 0) :
    (forePass things lights).thingHit.isSome ∨
    (forePass things lights).lightHit.isSome := by
  obtain ⟨e, he, hne⟩ := h
  rw [forePass]
  rcases List.mem_append.mp he with ht | hl
  · exact sl_disj _ _ (Or.inl (tf_fires _ initState rfl ⟨e, ht, hne⟩))
  · by_cases hsome :
      ((passParts false things).foldl stepThingFore initState).thingHit.isSome
    · exact sl_disj _ _ (Or.inl hsome)
    · have hinit :
          (passParts false things).foldl stepThingFore initState = initState := by
        rcases tf_prov (passParts false things) initState with heq | ⟨e', _, _, _, h2, _⟩
        · exact heq
        · rw [h2] at hsome
          simp at hsome
      rw [hinit]
      exact Or.inr (sl_fires _ initState rfl ⟨e, hl, hne⟩)

theorem fore_inv (things lights : List Surf) : hitInv (forePass things lights) := by
  rw [forePass]
  refine sl_inv _ _ ⟨Or.inr ?_, ?_, tf_iff _ initState (by simp [initState])⟩
  · exact (tf_lights _ initState).1
  · rw [(tf_lights _ initState).1, (tf_lights _ initState).2]
    simp [initState]

theorem bg_skip (things lights : List Surf)
    (h : ∀ e ∈ bgElems things lights, e.2.2 = 0) :
    bgPassInit things lights = initState := by
  rw [bgPassInit]
  have h1 : (passParts true things).foldl stepThingBg initState = initState :=
    tb_skip _ initState (fun e he => by
      rw [h e (List.mem_append_left _ he)]; exact hitCond_zero _)
  rw [h1]
  exact sl_skip _ initState (fun e he => by
    rw [h e (List.mem_append_right _ he)]; exact hitCond_zero _)

theorem bg_hit (things lights : List Surf)
    (h : ∃ e ∈ bgElems things lights, e.2.2 ≠ 0) :
    (bgPassInit things lights).thingHit.isSome ∨
    (bgPassInit things lights).lightHit.isSome := by
  obtain ⟨e, he, hne⟩ := h
  rw [bgPassInit]
  rcases List.mem_append.mp he with ht | hl
  · exact sl_disj _ _ (Or.inl (tb_fires _ initState rfl ⟨e, ht, hne⟩))
  · rcases tb_prov (passParts true things) initState with heq | hsome
    · rw [heq]
      exact Or.inr (sl_fires _ initState rfl ⟨e, hl, hne⟩)
    · exact sl_disj _ _ (Or.inl hsome)

theorem bg_inv (things lights : List Surf) : hitInv (bgPassInit things lights) := by
  rw [bgPassInit]
  exact sl_inv _ _ (tb_inv _ initState (by simp [hitInv, initState]))

theorem result_cases (things lights : List Surf) :
    (traceToNextIntersection things lights = forePass things lights ∧
      ((forePass things lights).thingHit.isSome ||
        (forePass things lights).lightHit.isSome) = true) ∨
    (traceToNextIntersection things lights = bgPassInit things lights ∧
      forePass things lights = initState ∧
      ∀ e ∈ foreElems things lights, e.2.2 = 0) := by
  by_cases hg : ((forePass things lights).thingHit.isSome ||
      (forePass things lights).lightHit.isSome) = true
  · left
    refine ⟨?_, hg⟩
    simp only [traceToNextIntersection]
    rw [if_pos hg]
  · right
    have hforall : ∀ e ∈ foreElems things lights, e.2.2 = 0 := by
      by_contra hc
      push_neg at hc
      obtain ⟨e, he, hne⟩ := hc
      rcases fore_hit things lights ⟨e, he, hne⟩ with h | h <;> simp [h] at hg
    have hfe : forePass things lights = initState := fore_skip things lights hforall
    refine ⟨?_, hfe, hforall⟩
    simp only [traceToNextIntersection]
    rw [if_neg hg, hfe, bgPassInit]

/-- Claim C3, counterexample: a foreground non-emitter (id 1) and a
foreground emitter (id 2) both intersect at `t = 1`; because the lights
loop requires `t < nearestT` strictly, the emitter does NOT displace
the non-emitter: the ray reports `thingHit = 1` and `lightHit = NULL`,
contradicting the claim that the emitter is reported. -/
theorem equal_t_tie_counterexample :
    (traceToNextIntersection [⟨1, false, [(10, 1)]⟩]
        [⟨2, false, [(20, 1)]⟩]).lightHit = none ∧
    (traceToNextIntersection [⟨1, false, [(10, 1)]⟩]
        [⟨2, false, [(20, 1)]⟩]).thingHit = some 1 := by
  decide

/-- Claim C3 (amended): when, within the foreground pass, an emitter
and a non-emitter both intersect at the same smallest positive `t`, the
NON-emitter (whose loop runs first) is reported and the emitter slots
stay NULL: on equal-`t` ties the earlier-iterated class wins, because
each loop only replaces the incumbent at strictly smaller `t`. -/
theorem equal_t_tie_thing_wins (things lights : List Surf) (tm : ℚ)
    (hpos : 0 < tm)
    (hthing : ∃ e ∈ passParts false things, e.2.2 = tm)
    (_hlight : ∃ e ∈ passParts false lights, e.2.2 = tm)
    (hminT : ∀ e ∈ passParts false things, e.2.2 = 0 ∨ tm ≤ e.2.2)
    (hminL : ∀ e ∈ passParts false lights, e.2.2 = 0 ∨ tm ≤ e.2.2) :
    (traceToNextIntersection things lights).thingHit.isSome ∧
    (traceToNextIntersection things lights).lightHit = none := by
  obtain ⟨e0, he0, ht0⟩ := hthing
  have hne0 : e0.2.2 ≠ 0 := by rw [ht0]; exact ne_of_gt hpos
  set st1 := (passParts false things).foldl stepThingFore initState with hst1
  have hsome : st1.thingHit.isSome := tf_fires _ initState rfl ⟨e0, he0, hne0⟩
  have hb : nle st1.nearestT (some tm) := by
    have h := tf_bound (passParts false things) initState e0 he0 hne0
    rw [ht0] at h
    exact h
  rcases tf_prov (passParts false things) initState with heq | ⟨e, he, hne, hn, _, _⟩
  · rw [← hst1] at heq
    rw [heq] at hsome
    simp [initState] at hsome
  · rw [← hst1] at hn
    have hgem : tm ≤ e.2.2 := (hminT e he).resolve_left hne
    have hle : e.2.2 ≤ tm := by
      rw [hn] at hb
      exact nle_some_some hb
    have heqt : e.2.2 = tm := le_antisymm hle hgem
    have hskip : (passParts false lights).foldl stepLight st1 = st1 := by
      apply sl_skip
      intro f hf
      rcases hminL f hf with hz | hge
      · rw [hz]
        exact hitCond_zero _
      · rw [hn, heqt]
        simp [hitCond, ltNearest, not_lt.mpr hge]
    have hst2 : forePass things lights = st1 := by
      rw [forePass, ← hst1, hskip]
    have hguard : ((forePass things lights).thingHit.isSome ||
        (forePass things lights).lightHit.isSome) = true := by
      rw [hst2]
      simp [hsome]
    have hres : traceToNextIntersection things lights = forePass things lights := by
      simp only [traceToNextIntersection]
      rw [if_pos hguard]
    rw [hres, hst2]
    exact ⟨hsome, (tf_lights _ initState).1⟩

/-- Claim C3, witness: the amended tie rule applied to the concrete
tied scene of the counterexample. -/
theorem equal_t_tie_thing_wins_witness :
    (traceToNextIntersection [⟨1, false, [(10, 1)]⟩]
        [⟨2, false, [(20, 1)]⟩]).thingHit.isSome ∧
    (traceToNextIntersection [⟨1, false, [(10, 1)]⟩]
        [⟨2, false, [(20, 1)]⟩]).lightHit = none :=
  equal_t_tie_thing_wins [⟨1, false, [(10, 1)]⟩] [⟨2, false, [(20, 1)]⟩] 1
    (by norm_num) (by decide) (by decide) (by decide) (by decide)

/-- Claim C6: under the intersect contract (no negative parameters), if
any foreground part intersects at a positive `t`, the background passes
never run, and the reported hit is a foreground surface achieving the
smallest positive `t` among all foreground parts. -/
theorem fore_shadows_bg (things lights : List Surf)
    (hnn : ∀ e ∈ foreElems things lights, 0 ≤ e.2.2)
    (hpos : ∃ e ∈ foreElems things lights, 0 < e.2.2) :
    traceToNextIntersection things lights = forePass things lights ∧
    ∃ t sid pid,
      (forePass things lights).nearestT = some t ∧ 0 < t ∧
      (sid, pid, t) ∈ foreElems things lights ∧
      (((forePass things lights).thingHit = some sid ∧
        (forePass things lights).thingPartHit = some pid) ∨
       ((forePass things lights).lightHit = some sid ∧
        (forePass things lights).lightPartHit = some pid)) ∧
      ∀ e ∈ foreElems things lights, e.2.2 ≠ 0 → t ≤ e.2.2 := by
  obtain ⟨e0, he0, hpos0⟩ := hpos
  have hne0 : e0.2.2 ≠ 0 := ne_of_gt hpos0
  have hres : traceToNextIntersection things lights = forePass things lights := by
    rcases result_cases things lights with ⟨h, _⟩ | ⟨_, _, hforall⟩
    · exact h
    · exact absurd (hforall e0 he0) hne0
  refine ⟨hres, ?_⟩
  have hguard := fore_hit things lights ⟨e0, he0, hne0⟩
  set st1 := (passParts false things).foldl stepThingFore initState with hst1
  have hfp : forePass things lights = (passParts false lights).foldl stepLight st1 := by
    rw [forePass, ← hst1]
  rcases sl_prov (passParts false lights) st1 with heq2 | ⟨e, he, hne, hn, hl1, hl2, _, _⟩
  · rcases tf_prov (passParts false things) initState with heq1 | ⟨e, he, hne, hn, hth, htp⟩
    · exfalso
      rw [← hst1] at heq1
      rw [hfp, heq2, heq1] at hguard
      simp [initState] at hguard
    · rw [← hst1] at hn hth htp
      refine ⟨e.2.2, e.1, e.2.1, ?_, ?_, ?_, ?_, ?_⟩
      · rw [hfp, heq2]
        exact hn
      · exact lt_of_le_of_ne (hnn e (List.mem_append_left _ he)) (Ne.symm hne)
      · exact List.mem_append_left _ he
      · left
        rw [hfp, heq2]
        exact ⟨hth, htp⟩
      · intro f hf hfne
        have hnf : nle (forePass things lights).nearestT (some f.2.2) := by
          rcases List.mem_append.mp hf with hft | hfl
          · have h1 := tf_bound (passParts false things) initState f hft hfne
            rw [← hst1] at h1
            rw [hfp]
            exact nle_trans (sl_mono _ _) h1
          · rw [hfp]
            exact sl_bound _ _ f hfl hfne
        rw [hfp, heq2, hn] at hnf
        exact nle_some_some hnf
  · refine ⟨e.2.2, e.1, e.2.1, ?_, ?_, ?_, ?_, ?_⟩
    · rw [hfp]
      exact hn
    · exact lt_of_le_of_ne (hnn e (List.mem_append_right _ he)) (Ne.symm hne)
    · exact List.mem_append_right _ he
    · right
      rw [hfp]
      exact ⟨hl1, hl2⟩
    · intro f hf hfne
      have hnf : nle (forePass things lights).nearestT (some f.2.2) := by
        rcases List.mem_append.mp hf with hft | hfl
        · have h1 := tf_bound (passParts false things) initState f hft hfne
          rw [← hst1] at h1
          rw [hfp]
          exact nle_trans (sl_mono _ _) h1
        · rw [hfp]
          exact sl_bound _ _ f hfl hfne
      rw [hfp, hn] at hnf
      exact nle_some_some hnf

/-- Claim C6, witness: a background part at `t = 1` is closer than the
foreground parts at `t = 2` and `t = 3`, yet the foreground pass alone
decides the hit. -/
theorem fore_shadows_bg_witness :
    traceToNextIntersection [⟨1, false, [(10, 2)]⟩, ⟨3, true, [(30, 1)]⟩]
        [⟨2, false, [(20, 3)]⟩] =
      forePass [⟨1, false, [(10, 2)]⟩, ⟨3, true, [(30, 1)]⟩]
        [⟨2, false, [(20, 3)]⟩] :=
  (fore_shadows_bg [⟨1, false, [(10, 2)]⟩, ⟨3, true, [(30, 1)]⟩]
    [⟨2, false, [(20, 3)]⟩] (by decide) (by decide)).1

/-- Claim C9: after `traceToNextIntersection`, at most one of
`lightHit`/`thingHit` is non-null; both are null exactly when every
part's intersect value is 0 (a total miss); and each part slot is
populated exactly when its surface slot is. -/
theorem hit_slots_invariant (things lights : List Surf) :
    ¬((traceToNextIntersection things lights).thingHit.isSome ∧
      (traceToNextIntersection things lights).lightHit.isSome) ∧
    (((traceToNextIntersection things lights).thingHit = none ∧
      (traceToNextIntersection things lights).lightHit = none) ↔
      ∀ e ∈ allElems things lights, e.2.2 = 0) ∧
    ((traceToNextIntersection things lights).lightPartHit.isSome ↔
      (traceToNextIntersection things lights).lightHit.isSome) ∧
    ((traceToNextIntersection things lights).thingPartHit.isSome ↔
      (traceToNextIntersection things lights).thingHit.isSome) := by
  have hsplit : (∀ e ∈ allElems things lights, e.2.2 = 0) ↔
      ((∀ e ∈ foreElems things lights, e.2.2 = 0) ∧
       (∀ e ∈ bgElems things lights, e.2.2 = 0)) := by
    simp only [allElems]
    exact List.forall_mem_append
  rcases result_cases things lights with ⟨hres, hg⟩ | ⟨hres, hfe, hforall⟩
  · rw [hres]
    have inv2 := fore_inv things lights
    refine ⟨?_, ?_, inv2.2.1, inv2.2.2⟩
    · rcases inv2.1 with h | h <;> simp [h]
    · constructor
      · rintro ⟨h1, h2⟩
        rw [h1, h2] at hg
        simp at hg
      · intro hz
        have h0 : forePass things lights = initState :=
          fore_skip things lights (hsplit.mp hz).1
        rw [h0] at hg
        simp [initState] at hg
  · rw [hres]
    have inv4 := bg_inv things lights
    refine ⟨?_, ?_, inv4.2.1, inv4.2.2⟩
    · rcases inv4.1 with h | h <;> simp [h]
    · rw [hsplit]
      constructor
      · rintro ⟨h1, h2⟩
        refine ⟨hforall, ?_⟩
        by_contra hc
        push_neg at hc
        obtain ⟨e, he, hne⟩ := hc
        rcases bg_hit things lights ⟨e, he, hne⟩ with h | h
        · rw [h1] at h
          simp at h
        · rw [h2] at h
          simp at h
      · rintro ⟨_, hz⟩
        rw [bg_skip things lights hz]
        exact ⟨rfl, rfl⟩

/-- Claim C7: `trace` terminates on every ray.  Depth is decremented
exactly once per non-terminal bounce and every bounce branch refuses
to recurse when the decremented depth is `< 1`, so fuel exceeding the
initial depth (in particular `maxDepth + 1`) is never exhausted: the
number of nested `trace` calls is bounded by the initial depth. -/
theorem trace_terminates (env : TraceEnv) (rrLimit : ℚ) :
    ∀ (fuel k : ℕ) (color : Triplet ℚ) (depth : ℤ), depth.toNat < fuel →
      (traceFuel env rrLimit fuel k color depth).isSome := by
  intro fuel
  induction fuel with
  | zero => intro k color depth h; exact absurd h (by omega)
  | succ n ih =>
    intro k color depth h
    simp only [traceFuel]
    by_cases h0 : color = black ∨ depth < 0
    · rw [if_pos h0]; rfl
    · rw [if_neg h0]
      push_neg at h0
      split
      all_goals try rfl
      all_goals split
      all_goals
        (split
         next hcnd => rfl
         next hcnd =>
           push_neg at hcnd
           obtain ⟨hd1, _⟩ := hcnd
           first
             | (rw [Option.isSome_map']
                exact ih (k + 1) _ (depth - 1) (by omega))
             | exact ih (k + 1) _ (depth - 1) (by omega))

/-- Claim C7, witness: a depth-0 ray is fully evaluated with fuel 1
(no recursive call is needed). -/
theorem trace_terminates_witness :
    (0 : ℤ).toNat < 1 ∧ (traceFuel skyEnv (1/2) 1 0 white 0).isSome :=
  ⟨by decide, trace_terminates skyEnv (1/2) 1 0 white 0 (by decide)⟩

/-- Claim C1: at a total internal reflection the code ADDS
`2 (d·N) N` (ray.cpp, line 168, `direction += ...`) instead of
subtracting it; at the failing input (inside glass n = 3/2, direction
(4/5, 0, 3/5), outward normal (0, 0, 1), so sin^2 theta2 = 36/25 > 1)
the produced direction (4/5, 0, 9/5) is not the mirror reflection
(4/5, 0, -3/5) and is not even unit length, while the mirror
subtraction used by `bounceReflect`/`bounceMetallic` gives the
reflection; the medium stack is indeed left unchanged. -/
theorem tir_uses_plus_not_reflection :
    bounceRefractGeom [7] 7 (fun _ => (3/2 : ℝ)) ⟨4/5, 0, 3/5⟩ ⟨0, 0, 1⟩ =
      (⟨4/5, 0, 9/5⟩, [7]) ∧
    reflectDirection ⟨4/5, 0, 3/5⟩ ⟨0, 0, 1⟩ = ⟨4/5, 0, -3/5⟩ ∧
    (⟨4/5, 0, 9/5⟩ : Triplet ℝ) ≠ ⟨4/5, 0, -3/5⟩ ∧
    dot (⟨4/5, 0, 9/5⟩ : Triplet ℝ) ⟨4/5, 0, 9/5⟩ ≠ 1 := by
  have hm : mediumN1N2 [7] 7 (fun _ => (3/2 : ℝ)) = (3/2, 1) := by
    simp [mediumN1N2]
  have heta : refrEta [7] 7 (fun _ => (3/2 : ℝ)) = 3/2 := by
    rw [refrEta, hm]
    norm_num
  have hdN : dot (⟨4/5, 0, 3/5⟩ : Triplet ℝ) ⟨0, 0, 1⟩ = 3/5 := by
    norm_num [dot]
  have hs : sinT2sq [7] 7 (fun _ => (3/2 : ℝ)) ⟨4/5, 0, 3/5⟩ ⟨0, 0, 1⟩ = 36/25 := by
    rw [sinT2sq, heta, hdN]
    rw [abs_of_pos (by norm_num : (0:ℝ) < 3/5)]
    norm_num
  refine ⟨?_, ?_, ?_, ?_⟩
  · rw [bounceRefractGeom, if_pos (by rw [hs]; norm_num), hdN]
    simp only [Triplet.add_def, Triplet.smul_def, Prod.mk.injEq, Triplet.mk.injEq]
    norm_num
  · rw [reflectDirection, hdN]
    simp only [Triplet.sub_def, Triplet.smul_def, Triplet.mk.injEq]
    norm_num
  · simp only [ne_eq, Triplet.mk.injEq]
    norm_num
  · norm_num [dot]

theorem dot_comb (u v w : Triplet ℝ) (a b : ℝ) :
    dot (u * a + v * b) w = a * dot u w + b * dot v w := by
  simp [dot]
  ring

theorem dot_comb2 (u v : Triplet ℝ) (a b : ℝ) :
    dot (u * a + v * b) (u * a + v * b) =
      a * a * dot u u + 2 * (a * b) * dot u v + b * b * dot v v := by
  simp [dot]
  ring

/-- Core algebra of the transmission branch: with unit incoming
direction and unit normal, a nonnegative `r` with
`r^2 = 1 - (n1/n2)^2 (1 - c^2)` (the code's `cosTheta2`), the refracted
direction of ray.cpp line 174 is unit and satisfies Snell's law. -/
theorem refract_core (n1 n2 c r : ℝ) (d N : Triplet ℝ)
    (hd : dot d d = 1) (hN : dot N N = 1) (hc : dot d N = c)
    (hn1 : 0 < n1) (hn2 : 0 < n2)
    (hr2 : r * r = 1 - n1 / n2 * (n1 / n2) * (1 - c * c)) :
    dot (d * (n1 / n2) +
          N * ((n1 / n2 * |c| - r) * (if c < 0 then (1 : ℝ) else -1)))
        (d * (n1 / n2) +
          N * ((n1 / n2 * |c| - r) * (if c < 0 then (1 : ℝ) else -1))) = 1 ∧
    n1 * Real.sqrt (1 - c * c) =
      n2 * Real.sqrt (1 -
        dot (d * (n1 / n2) +
              N * ((n1 / n2 * |c| - r) * (if c < 0 then (1 : ℝ) else -1))) N *
        dot (d * (n1 / n2) +
              N * ((n1 / n2 * |c| - r) * (if c < 0 then (1 : ℝ) else -1))) N) := by
  have hdn : dot (d * (n1 / n2) +
        N * ((n1 / n2 * |c| - r) * (if c < 0 then (1 : ℝ) else -1))) N *
      dot (d * (n1 / n2) +
        N * ((n1 / n2 * |c| - r) * (if c < 0 then (1 : ℝ) else -1))) N = r * r := by
    rw [dot_comb, hN, hc]
    rcases lt_or_ge c 0 with hcase | hcase
    · rw [if_pos hcase, abs_of_neg hcase]
      ring
    · rw [if_neg (not_lt.mpr hcase), abs_of_nonneg hcase]
      ring
  constructor
  · rw [dot_comb2, hd, hN, hc]
    rcases lt_or_ge c 0 with hcase | hcase
    · rw [if_pos hcase, abs_of_neg hcase]
      linear_combination hr2
    · rw [if_neg (not_lt.mpr hcase), abs_of_nonneg hcase]
      linear_combination hr2
  · rw [hdn]
    have h1 : 1 - r * r = n1 / n2 * (n1 / n2) * (1 - c * c) := by linarith
    rw [h1, Real.sqrt_mul (mul_self_nonneg _),
        Real.sqrt_mul_self (le_of_lt (div_pos hn1 hn2))]
    field_simp

/-- Claim C5: in the transmission branch (`sinTheta2Squared <= 1`) of
`bounceRefract`, for a unit incoming direction and a unit normal and
positive refractive indices, the outgoing direction is unit and
satisfies Snell's law `n1 sin(theta1) = n2 sin(theta2)`, where
`sin(theta) = sqrt(1 - cos(theta)^2)` against the surface normal. -/
theorem refract_snell (ins : List ℕ) (th : ℕ) (ri : ℕ → ℝ) (d N : Triplet ℝ)
    (hd : dot d d = 1) (hN : dot N N = 1)
    (hn1 : 0 < (mediumN1N2 ins th ri).1) (hn2 : 0 < (mediumN1N2 ins th ri).2)
    (hs : sinT2sq ins th ri d N ≤ 1) :
    dot (bounceRefractGeom ins th ri d N).1 (bounceRefractGeom ins th ri d N).1 = 1 ∧
    (mediumN1N2 ins th ri).1 * Real.sqrt (1 - dot d N * dot d N) =
      (mediumN1N2 ins th ri).2 *
        Real.sqrt (1 - dot (bounceRefractGeom ins th ri d N).1 N *
          dot (bounceRefractGeom ins th ri d N).1 N) := by
  have hs2c : sinT2sq ins th ri d N =
      (mediumN1N2 ins th ri).1 / (mediumN1N2 ins th ri).2 *
        ((mediumN1N2 ins th ri).1 / (mediumN1N2 ins th ri).2) *
        (1 - dot d N * dot d N) := by
    rw [sinT2sq, refrEta, abs_mul_abs_self]
  have hb : (bounceRefractGeom ins th ri d N).1 =
      d * ((mediumN1N2 ins th ri).1 / (mediumN1N2 ins th ri).2) +
      N * (((mediumN1N2 ins th ri).1 / (mediumN1N2 ins th ri).2 * |dot d N| -
        Real.sqrt (1 - sinT2sq ins th ri d N)) *
        (if dot d N < 0 then (1 : ℝ) else -1)) := by
    rw [bounceRefractGeom, if_neg (not_lt.mpr hs), refrEta]
  have hr2 : Real.sqrt (1 - sinT2sq ins th ri d N) *
      Real.sqrt (1 - sinT2sq ins th ri d N) =
      1 - (mediumN1N2 ins th ri).1 / (mediumN1N2 ins th ri).2 *
        ((mediumN1N2 ins th ri).1 / (mediumN1N2 ins th ri).2) *
        (1 - dot d N * dot d N) := by
    rw [Real.mul_self_sqrt (by linarith), hs2c]
  have hkey := refract_core (mediumN1N2 ins th ri).1 (mediumN1N2 ins th ri).2
    (dot d N) (Real.sqrt (1 - sinT2sq ins th ri d N)) d N hd hN rfl hn1 hn2 hr2
  rw [hb]
  exact hkey

/-- Claim C5, witness: entering glass (n2 = 3/2) from vacuum at normal
incidence; the refracted direction is (0, 0, -1) and both sides of
Snell's law are 0. -/
theorem refract_snell_witness :
    (dot (⟨0, 0, -1⟩ : Triplet ℝ) ⟨0, 0, -1⟩ = 1 ∧
     dot (⟨0, 0, 1⟩ : Triplet ℝ) ⟨0, 0, 1⟩ = 1 ∧
     0 < (mediumN1N2 [] 7 (fun _ => (3/2 : ℝ))).1 ∧
     0 < (mediumN1N2 [] 7 (fun _ => (3/2 : ℝ))).2 ∧
     sinT2sq [] 7 (fun _ => (3/2 : ℝ)) ⟨0, 0, -1⟩ ⟨0, 0, 1⟩ ≤ 1) ∧
    (dot (bounceRefractGeom [] 7 (fun _ => (3/2 : ℝ)) ⟨0, 0, -1⟩ ⟨0, 0, 1⟩).1
        (bounceRefractGeom [] 7 (fun _ => (3/2 : ℝ)) ⟨0, 0, -1⟩ ⟨0, 0, 1⟩).1 = 1 ∧
     (mediumN1N2 [] 7 (fun _ => (3/2 : ℝ))).1 *
        Real.sqrt (1 - dot (⟨0, 0, -1⟩ : Triplet ℝ) ⟨0, 0, 1⟩ *
          dot (⟨0, 0, -1⟩ : Triplet ℝ) ⟨0, 0, 1⟩) =
      (mediumN1N2 [] 7 (fun _ => (3/2 : ℝ))).2 *
        Real.sqrt (1 -
          dot (bounceRefractGeom [] 7 (fun _ => (3/2 : ℝ)) ⟨0, 0, -1⟩ ⟨0, 0, 1⟩).1
            ⟨0, 0, 1⟩ *
          dot (bounceRefractGeom [] 7 (fun _ => (3/2 : ℝ)) ⟨0, 0, -1⟩ ⟨0, 0, 1⟩).1
            ⟨0, 0, 1⟩)) :=
  ⟨⟨by norm_num [dot], by norm_num [dot], by norm_num [mediumN1N2],
    by norm_num [mediumN1N2],
    by rw [sinT2sq, refrEta]; norm_num [mediumN1N2, dot]⟩,
   refract_snell [] 7 (fun _ => (3/2 : ℝ)) ⟨0, 0, -1⟩ ⟨0, 0, 1⟩
     (by norm_num [dot]) (by norm_num [dot]) (by norm_num [mediumN1N2])
     (by norm_num [mediumN1N2])
     (by rw [sinT2sq, refrEta]; norm_num [mediumN1N2, dot])⟩

theorem dot_comm (u v : Triplet ℝ) : dot u v = dot v u := by
  simp [dot]
  ring

theorem normalizeVec_dot (v w : Triplet ℝ) :
    dot (normalizeVec v) w = dot v w / vlength v := by
  simp only [normalizeVec, dot]
  ring

theorem normalizeVec_unit (v : Triplet ℝ) (h : 0 < dot v v) :
    dot (normalizeVec v) (normalizeVec v) = 1 := by
  have hL : vlength v * vlength v = dot v v := Real.mul_self_sqrt (le_of_lt h)
  have hq : dot (normalizeVec v) (normalizeVec v) =
      dot v v / (vlength v * vlength v) := by
    simp only [normalizeVec, dot]
    ring
  rw [hq, hL, div_self (ne_of_gt h)]

theorem cross_dot_left (u v : Triplet ℝ) : dot (cross u v) u = 0 := by
  simp [cross, dot]
  ring

theorem cross_dot_right (u v : Triplet ℝ) : dot (cross u v) v = 0 := by
  simp [cross, dot]
  ring

theorem cross_norm_sq (u v : Triplet ℝ) :
    dot (cross u v) (cross u v) = dot u u * dot v v - dot u v * dot u v := by
  simp [cross, dot]
  ring

theorem dot_comb3 (u v w : Triplet ℝ) (a b c : ℝ) :
    dot (u * a + v * b + w * c) (u * a + v * b + w * c) =
      a * a * dot u u + b * b * dot v v + c * c * dot w w +
        2 * (a * b) * dot u v + 2 * (a * c) * dot u w + 2 * (b * c) * dot v w := by
  simp [dot]
  ring

theorem dot_comb3_right (u v w t : Triplet ℝ) (a b c : ℝ) :
    dot (u * a + v * b + w * c) t =
      a * dot u t + b * dot v t + c * dot w t := by
  simp [dot]
  ring

/-- The normalized combination of an orthonormal triple is unit and
its component along `n` is `z / |S| ≥ 0` when `z ≥ 0`. -/
theorem hemisphere_core (tX tY n : Triplet ℝ) (x y z : ℝ)
    (htX : dot tX tX = 1) (htY : dot tY tY = 1) (hn : dot n n = 1)
    (hXY : dot tX tY = 0) (hXn : dot tX n = 0) (hYn : dot tY n = 0)
    (hz : 0 ≤ z) (hnz : ¬(x = 0 ∧ y = 0 ∧ z = 0)) :
    dot (normalizeVec (tX * x + tY * y + n * z))
        (normalizeVec (tX * x + tY * y + n * z)) = 1 ∧
    0 ≤ dot (normalizeVec (tX * x + tY * y + n * z)) n := by
  have hS : dot (tX * x + tY * y + n * z) (tX * x + tY * y + n * z) =
      x * x + y * y + z * z := by
    rw [dot_comb3, htX, htY, hn, hXY, hXn, hYn]
    ring
  have hSpos : 0 < dot (tX * x + tY * y + n * z) (tX * x + tY * y + n * z) := by
    rw [hS]
    rcases eq_or_lt_of_le
        (add_nonneg (add_nonneg (mul_self_nonneg x) (mul_self_nonneg y))
          (mul_self_nonneg z)) with heq | hlt
    · exfalso
      apply hnz
      have hx : x * x = 0 := by
        nlinarith [mul_self_nonneg x, mul_self_nonneg y, mul_self_nonneg z]
      have hy : y * y = 0 := by
        nlinarith [mul_self_nonneg x, mul_self_nonneg y, mul_self_nonneg z]
      have hz0 : z * z = 0 := by
        nlinarith [mul_self_nonneg x, mul_self_nonneg y, mul_self_nonneg z]
      exact ⟨mul_self_eq_zero.mp hx, mul_self_eq_zero.mp hy,
        mul_self_eq_zero.mp hz0⟩
    · exact hlt
  refine ⟨normalizeVec_unit _ hSpos, ?_⟩
  rw [normalizeVec_dot, dot_comb3_right, hXn, hYn, hn]
  have hnum : x * 0 + y * 0 + z * 1 = z := by ring
  rw [hnum]
  exact div_nonneg hz (Real.sqrt_nonneg _)

/-- Claim C8: for every unit normal and every accepted outcome of the
random source (`z ≥ 0`, not all components zero), `Vector::random`
returns a unit vector lying in the closed hemisphere around the
normal. -/
theorem vector_random_hemisphere (normal : Triplet ℝ) (x y z : ℝ)
    (hn : dot normal normal = 1) (hz : 0 ≤ z)
    (hnz : ¬(x = 0 ∧ y = 0 ∧ z = 0)) :
    dot (vectorRandom normal x y z) (vectorRandom normal x y z) = 1 ∧
    0 ≤ dot (vectorRandom normal x y z) normal := by
  by_cases hcase : unitZ = normal ∨ -unitZ = normal
  · rw [vectorRandom, if_pos hcase]
    refine hemisphere_core unitX unitY normal x y z (by norm_num [dot, unitX])
      (by norm_num [dot, unitY]) hn (by norm_num [dot, unitX, unitY]) ?_ ?_ hz hnz
    · rcases hcase with h | h
      · rw [← h]
        norm_num [dot, unitX, unitZ]
      · rw [← h]
        norm_num [dot, unitX, unitZ]
    · rcases hcase with h | h
      · rw [← h]
        norm_num [dot, unitY, unitZ]
      · rw [← h]
        norm_num [dot, unitY, unitZ]
  · rw [vectorRandom, if_neg hcase]
    push_neg at hcase
    obtain ⟨h1, h2⟩ := hcase
    have hZZ : dot unitZ unitZ = 1 := by norm_num [dot, unitZ]
    have hcpos : 0 < dot (cross normal unitZ) (cross normal unitZ) := by
      rw [cross_norm_sq, hn, hZZ]
      have hcz : dot normal unitZ = normal.z := by simp [dot, unitZ]
      rw [hcz]
      by_contra hle
      push_neg at hle
      have hnco : normal.x * normal.x + normal.y * normal.y +
          normal.z * normal.z = 1 := by simpa [dot] using hn
      have hxx : normal.x * normal.x = 0 := by
        nlinarith [mul_self_nonneg normal.x, mul_self_nonneg normal.y]
      have hyy : normal.y * normal.y = 0 := by
        nlinarith [mul_self_nonneg normal.x, mul_self_nonneg normal.y]
      have hx0 := mul_self_eq_zero.mp hxx
      have hy0 := mul_self_eq_zero.mp hyy
      have hzz : normal.z * normal.z = 1 := by nlinarith
      rcases mul_self_eq_one_iff.mp hzz with hz1 | hz1
      · apply h1
        rw [show normal = (⟨normal.x, normal.y, normal.z⟩ : Triplet ℝ) from rfl,
          hx0, hy0, hz1]
        rfl
      · apply h2
        rw [show normal = (⟨normal.x, normal.y, normal.z⟩ : Triplet ℝ) from rfl,
          hx0, hy0, hz1]
        norm_num [unitZ]
    have htX1 := normalizeVec_unit _ hcpos
    have htXn : dot (normalizeVec (cross normal unitZ)) normal = 0 := by
      rw [normalizeVec_dot, cross_dot_left]
      simp
    have hntX : dot normal (normalizeVec (cross normal unitZ)) = 0 := by
      rw [dot_comm]
      exact htXn
    have hv2 : dot (cross normal (normalizeVec (cross normal unitZ)))
        (cross normal (normalizeVec (cross normal unitZ))) = 1 := by
      rw [cross_norm_sq, hn, htX1, hntX]
      ring
    have hv2pos : 0 < dot (cross normal (normalizeVec (cross normal unitZ)))
        (cross normal (normalizeVec (cross normal unitZ))) := by
      rw [hv2]
      norm_num
    have htY1 := normalizeVec_unit _ hv2pos
    have htYn : dot (normalizeVec (cross normal
        (normalizeVec (cross normal unitZ)))) normal = 0 := by
      rw [normalizeVec_dot, cross_dot_left]
      simp
    have htXtY : dot (normalizeVec (cross normal unitZ))
        (normalizeVec (cross normal (normalizeVec (cross normal unitZ)))) = 0 := by
      rw [dot_comm, normalizeVec_dot, cross_dot_right]
      simp
    exact hemisphere_core _ _ _ x y z htX1 htY1 hn htXtY htXn htYn hz hnz

/-- Claim C8, witness: normal `UnitZ`, accepted sample `(0, 0, 1)`. -/
theorem vector_random_hemisphere_witness :
    dot (vectorRandom unitZ 0 0 1) (vectorRandom unitZ 0 0 1) = 1 ∧
    0 ≤ dot (vectorRandom unitZ 0 0 1) unitZ :=
  vector_random_hemisphere unitZ 0 0 1 (by norm_num [dot, unitZ])
    (by norm_num) (by norm_num)
